import Mathlib

/-!
Verification development for the stellar-insights repository.

Part 1 models the adaptive cache of
src/contracts/Proper Cache Invalidation Strategy/cache.rs and invalidation.rs:
the store is an association list standing for the std HashMap, instants are
naturals (an explicit now parameter replaces Instant::now()), and the
background-task event handler is a pure function on the cache state.

Part 2 models the replay subsystem of src/backend/src/replay/mod.rs
(ContractEvent and its unique_id encoding) and, where the repository ships
only the declaration and the tests, the state builder is modelled from the
specification.
-/

namespace StellarInsights

/-! ### Cache data model (cache.rs) -/

/-- CacheInvalidationEvent from cache.rs. -/
inductive CacheInvalidationEvent where
  | paymentDetected (corridor_id : String)
  | anchorStatusChanged (anchor_id : String)
  | adminInvalidate (pat : String)
  | ttlSweep
  | memoryPressure (target_size : Nat)
deriving DecidableEq

/-- CacheEntry from cache.rs: a value, an absolute expiry instant and the
monotonic counter value of the last access. -/
structure CacheEntry (V : Type) where
  value : V
  expires_at : Nat
  last_used : Nat
deriving DecidableEq

/-- CacheEntry::is_expired: Instant::now() > self.expires_at. -/
def CacheEntry.is_expired (e : CacheEntry V) (now : Nat) : Bool :=
  decide (e.expires_at < now)

/-- CacheMetrics from cache.rs. -/
structure CacheMetrics where
  hits : Nat := 0
  misses : Nat := 0
  invalidations : Nat := 0
  evictions : Nat := 0
  warm_ups : Nat := 0
  current_size : Nat := 0
deriving DecidableEq

/-- First binding of a key in the association-list store (HashMap lookup). -/
def lookupKey (k : String) : List (String × CacheEntry V) → Option (CacheEntry V)
  | [] => none
  | kv :: rest => if kv.1 = k then some kv.2 else lookupKey k rest

/-- Replace the binding of an existing key in place. -/
def replaceKey (k : String) (e : CacheEntry V) :
    List (String × CacheEntry V) → List (String × CacheEntry V)
  | [] => []
  | kv :: rest => if kv.1 = k then (k, e) :: rest else kv :: replaceKey k e rest

/-- Remove the binding of a key (HashMap::remove). -/
def eraseKey (k : String) : List (String × CacheEntry V) → List (String × CacheEntry V)
  | [] => []
  | kv :: rest => if kv.1 = k then rest else kv :: eraseKey k rest

/-- HashMap::insert: overwrite the existing binding, or add a new one. -/
def insertKey (k : String) (e : CacheEntry V) (l : List (String × CacheEntry V)) :
    List (String × CacheEntry V) :=
  if (lookupKey k l).isSome then replaceKey k e l else l ++ [(k, e)]

/-- Rust str::contains: p occurs in k as a contiguous substring. -/
def containsSubstr (k p : String) : Bool :=
  decide (p.data <:+: k.data)

/-- The CacheManager state: the store map, the atomic logical clock, the
metrics, and the immutable capacity. -/
structure Cache (V : Type) where
  capacity : Nat
  store : List (String × CacheEntry V)
  clock : Nat
  metrics : CacheMetrics
deriving DecidableEq

/-- CacheManager::new: empty store, clock 0, default metrics. -/
def initCache (V : Type) (capacity : Nat) : Cache V :=
  { capacity := capacity, store := [], clock := 0, metrics := {} }

/-- store.iter().min_by_key(last_used): an entry with the minimal last_used
value (the iteration order of the HashMap is arbitrary; this model keeps the
first minimum, and all reachable stores have pairwise distinct last_used
values, so the choice is unique there). -/
def lruEntry? : List (String × CacheEntry V) → Option (String × CacheEntry V)
  | [] => none
  | kv :: rest =>
    match lruEntry? rest with
    | none => some kv
    | some best => if best.2.last_used < kv.2.last_used then some best else some kv

/-- CacheManager::evict_lru: if over capacity, remove one entry with the
smallest last_used, then bump evictions and reconcile current_size. -/
def evictLru (c : Cache V) : Cache V :=
  if c.store.length ≤ c.capacity then c
  else
    let store' := match lruEntry? c.store with
      | none => c.store
      | some kv => eraseKey kv.1 c.store
    { c with store := store'
             metrics := { c.metrics with
                          evictions := c.metrics.evictions + 1
                          current_size := store'.length } }

/-- CacheManager::set: draw a fresh clock value, insert the entry with
expires_at = now + ttl, reconcile current_size, and run one synchronous
eviction round when the store exceeds capacity. -/
def set (now : Nat) (k : String) (v : V) (ttl : Nat) (c : Cache V) : Cache V :=
  let seq := c.clock
  let store' := insertKey k { value := v, expires_at := now + ttl, last_used := seq } c.store
  let size := store'.length
  let c' : Cache V :=
    { c with clock := c.clock + 1
             store := store'
             metrics := { c.metrics with current_size := size } }
  if c.capacity < size then evictLru c' else c'

/-- CacheManager::get: a present, unexpired entry is a hit (its last_used is
set to a fresh clock value and hits is bumped); an expired entry is removed
and counted as a miss; an absent key is a miss. -/
def get (now : Nat) (k : String) (c : Cache V) : Option V × Cache V :=
  match lookupKey k c.store with
  | some e =>
    if e.expires_at < now then
      (none, { c with store := eraseKey k c.store
                      metrics := { c.metrics with misses := c.metrics.misses + 1 } })
    else
      (some e.value,
       { c with store := replaceKey k { e with last_used := c.clock } c.store
                clock := c.clock + 1
                metrics := { c.metrics with hits := c.metrics.hits + 1 } })
  | none =>
    (none, { c with metrics := { c.metrics with misses := c.metrics.misses + 1 } })

/-- CacheManager::invalidate: remove one key, always bump invalidations by
one and reconcile current_size. -/
def invalidate (k : String) (c : Cache V) : Cache V :=
  let store' := eraseKey k c.store
  { c with store := store'
           metrics := { c.metrics with
                        invalidations := c.metrics.invalidations + 1
                        current_size := store'.length } }

/-- CacheManager::invalidate_pattern: retain the keys that do not contain the
pattern, add the number removed to invalidations, reconcile current_size. -/
def invalidatePattern (pat : String) (c : Cache V) : Cache V :=
  let store' := c.store.filter (fun kv => ! containsSubstr kv.1 pat)
  let removed := c.store.length - store'.length
  { c with store := store'
           metrics := { c.metrics with
                        invalidations := c.metrics.invalidations + removed
                        current_size := store'.length } }

/-- CacheManager::flush: clear the store, add the prior size to
invalidations, set current_size to 0. -/
def flush (c : Cache V) : Cache V :=
  { c with store := []
           metrics := { c.metrics with
                        invalidations := c.metrics.invalidations + c.store.length
                        current_size := 0 } }

/-- The periodic sweep-ticker arm of the background task: drop expired
entries; metrics are only written when something was removed. -/
def sweepTick (now : Nat) (c : Cache V) : Cache V :=
  let store' := c.store.filter (fun kv => ! kv.2.is_expired now)
  let removed := c.store.length - store'.length
  if 0 < removed then
    { c with store := store'
             metrics := { c.metrics with
                          invalidations := c.metrics.invalidations + removed
                          current_size := store'.length } }
  else
    { c with store := store' }

/-- The MemoryPressure while-loop: remove an LRU entry while the store is
larger than the target. Each round removes one entry, so the initial length
is enough fuel; the zero-fuel arm is never reached from evictLoopRun. -/
def evictLoop (fuel target : Nat) (l : List (String × CacheEntry V)) :
    List (String × CacheEntry V) :=
  match fuel with
  | 0 => l
  | fuel + 1 =>
    if l.length ≤ target then l
    else
      match lruEntry? l with
      | none => l
      | some kv => evictLoop fuel target (eraseKey kv.1 l)

/-- The MemoryPressure loop at its natural fuel. -/
def evictLoopRun (target : Nat) (l : List (String × CacheEntry V)) :
    List (String × CacheEntry V) :=
  evictLoop l.length target l

/-- The bus-event arm of CacheManager::spawn_background_task. The three
pattern arms coincide line for line with the body of invalidate_pattern.
The TtlSweep arm drops expired entries and reconciles current_size only.
The MemoryPressure arm runs the eviction loop and then computes
evictions + (capacity - target_size) on usize: when target_size exceeds the
capacity this subtraction underflows (a panic in debug builds, a wrapping
bogus count in release builds), which this model renders as none. -/
def handleEvent (now : Nat) (ev : CacheInvalidationEvent) (c : Cache V) : Option (Cache V) :=
  match ev with
  | .paymentDetected cid => some (invalidatePattern ("corridor:" ++ cid) c)
  | .anchorStatusChanged aid => some (invalidatePattern ("anchor:" ++ aid) c)
  | .adminInvalidate pat => some (invalidatePattern pat c)
  | .ttlSweep =>
    let store' := c.store.filter (fun kv => ! kv.2.is_expired now)
    some { c with store := store'
                  metrics := { c.metrics with current_size := store'.length } }
  | .memoryPressure target =>
    let store' := evictLoopRun target c.store
    if target ≤ c.capacity then
      some { c with store := store'
                    metrics := { c.metrics with
                                 evictions := c.metrics.evictions + (c.capacity - target)
                                 current_size := store'.length } }
    else none

/-- warm_cache from invalidation.rs: insert every entry via set and return
the number of entries; the metrics snapshot it reads is dropped, so no
metric, in particular warm_ups, is written. An entry is (key, value, ttl). -/
def warmCache (now : Nat) (entries : List (String × V × Nat)) (c : Cache V) :
    Nat × Cache V :=
  (entries.length, entries.foldl (fun acc e => set now e.1 e.2.1 e.2.2 acc) c)

/-- One public cache operation, for stating lifetime invariants. -/
inductive CacheOp (V : Type) where
  | setOp (now : Nat) (k : String) (v : V) (ttl : Nat)
  | getOp (now : Nat) (k : String)
  | invalidateOp (k : String)
  | invalidatePatternOp (pat : String)
  | flushOp
  | sweepTickOp (now : Nat)
  | eventOp (now : Nat) (ev : CacheInvalidationEvent)

/-- Apply one operation. When the MemoryPressure metrics update underflows,
the panic happens after the store mutation and before any metrics write, so
the post-panic state keeps the evicted store and the untouched metrics. -/
def applyOp (op : CacheOp V) (c : Cache V) : Cache V :=
  match op with
  | .setOp now k v ttl => set now k v ttl c
  | .getOp now k => (get now k c).2
  | .invalidateOp k => invalidate k c
  | .invalidatePatternOp pat => invalidatePattern pat c
  | .flushOp => flush c
  | .sweepTickOp now => sweepTick now c
  | .eventOp now ev =>
    match handleEvent now ev c with
    | some c' => c'
    | none =>
      match ev with
      | .memoryPressure target => { c with store := evictLoopRun target c.store }
      | _ => c

/-- The store contents produced by a run of sets of fresh keys: the entry of
the j-th listed key carries the clock value i + j. Used to state the LRU
progress property. -/
def window (now ttl : Nat) : Nat → List (String × V) → List (String × CacheEntry V)
  | _, [] => []
  | i, kv :: rest =>
    (kv.1, { value := kv.2, expires_at := now + ttl, last_used := i }) :: window now ttl (i + 1) rest

/-! ### Replay data model (backend/src/replay/mod.rs) -/

/-- ContractEvent from replay/mod.rs. The JSON data payload is modelled as
its parsed snapshot fields (epoch, hash) when present, the timestamp as a
natural. -/
structure ContractEvent where
  id : String
  ledger_sequence : Nat
  transaction_hash : String
  contract_id : String
  event_type : String
  data : Option (Nat × String)
  timestamp : Nat
  network : String
deriving DecidableEq

/-- Decimal digits of a natural, most significant first, by fuel recursion
(n + 1 bounds the digit count); the embedding of the decimal formatting of
u64 values. -/
def natDigitsAux : Nat → Nat → List Char
  | 0, _ => []
  | fuel + 1, n =>
    if n < 10 then [Nat.digitChar n]
    else natDigitsAux fuel (n / 10) ++ [Nat.digitChar (n % 10)]

/-- Decimal rendering of a natural. -/
def natDigits (n : Nat) : List Char := natDigitsAux (n + 1) n

/-- ContractEvent::unique_id: the colon-joined rendering
ledger_sequence:transaction_hash:event_type. -/
def uniqueId (e : ContractEvent) : String :=
  ⟨natDigits e.ledger_sequence ++ ':' :: e.transaction_hash.data ++ ':' :: e.event_type.data⟩

/-- Modelled from the spec: state_builder.rs is not among the repository
sources (replay/mod.rs only declares the module and the tests exercise it),
so the fold product of §3 is modelled from the specification: the ledger of
the last applied event and the snapshots table keyed by epoch. -/
structure ApplicationState where
  ledger : Nat
  snapshots : List (Nat × String)
deriving DecidableEq

/-- Modelled from the spec: the result shape of apply_event, {success, skipped}. -/
structure ApplyResult where
  success : Bool
  skipped : Bool
deriving DecidableEq

/-- Modelled from the spec: the state builder carries the application state,
the idempotency index of processed event ids, and the processed counter. -/
structure StateBuilder where
  appState : ApplicationState
  processedEvents : List String
  events_processed : Nat
deriving DecidableEq

/-- Modelled from the spec: StateBuilder::apply_event per §4.3 — a repeated
id returns skipped=true and mutates nothing; otherwise snapshot_submitted
inserts into snapshots[epoch], unknown event types are accepted without
state change, the id joins the index, the ledger becomes the max, and the
processed counter advances by one. -/
def applyEvent (e : ContractEvent) (b : StateBuilder) : ApplyResult × StateBuilder :=
  if e.id ∈ b.processedEvents then
    ({ success := true, skipped := true }, b)
  else
    let st := b.appState
    let st' :=
      if e.event_type = ("snapshot_submitted") then
        match e.data with
        | some eh => { st with snapshots := eh :: st.snapshots }
        | none => st
      else st
    ({ success := true, skipped := false },
     { appState := { st' with ledger := max st'.ledger e.ledger_sequence }
       processedEvents := e.id :: b.processedEvents
       events_processed := b.events_processed + 1 })

/-! ### Association-list store lemmas -/

variable {V : Type}

theorem lookupKey_eq_none {k : String} {l : List (String × CacheEntry V)} :
    lookupKey k l = none ↔ k ∉ l.map Prod.fst := by
  induction l with
  | nil => simp [lookupKey]
  | cons kv rest ih =>
    by_cases h : kv.1 = k
    · simp [lookupKey, h]
    · have h' : ¬ k = kv.1 := fun hh => h hh.symm
      simp [lookupKey, h, h', ih]

theorem lookupKey_filter (p : String → Bool) (k : String)
    (l : List (String × CacheEntry V)) :
    lookupKey k (l.filter fun kv => p kv.1) =
      if p k then lookupKey k l else none := by
  induction l with
  | nil => simp [lookupKey]
  | cons kv rest ih =>
    by_cases h : kv.1 = k
    · subst h
      by_cases hp : p kv.1 <;> simp [lookupKey, hp, ih]
    · by_cases hp : p kv.1 <;> simp [lookupKey, hp, h, ih]

theorem eraseKey_of_lookup_none {k : String} {l : List (String × CacheEntry V)}
    (h : lookupKey k l = none) : eraseKey k l = l := by
  induction l with
  | nil => rfl
  | cons kv rest ih =>
    simp only [lookupKey] at h
    by_cases hk : kv.1 = k
    · simp [hk] at h
    · simp only [eraseKey, if_neg hk]
      simp [hk] at h
      simp [ih h]

theorem length_eraseKey_of_lookup {k : String} {e : CacheEntry V}
    {l : List (String × CacheEntry V)} (h : lookupKey k l = some e) :
    (eraseKey k l).length + 1 = l.length := by
  induction l with
  | nil => simp [lookupKey] at h
  | cons kv rest ih =>
    simp only [lookupKey] at h
    by_cases hk : kv.1 = k
    · simp [eraseKey, hk]
    · simp only [eraseKey, if_neg hk, List.length_cons]
      simp [hk] at h
      have := ih h
      omega

theorem lookupKey_eraseKey_ne {k k' : String} (hne : k' ≠ k)
    (l : List (String × CacheEntry V)) :
    lookupKey k (eraseKey k' l) = lookupKey k l := by
  induction l with
  | nil => rfl
  | cons kv rest ih =>
    simp only [eraseKey]
    by_cases hk : kv.1 = k'
    · have hkk : ¬ kv.1 = k := by rw [hk]; exact hne
      rw [if_pos hk]
      conv_rhs => rw [lookupKey, if_neg hkk]
    · rw [if_neg hk]
      by_cases h2 : kv.1 = k <;> simp [lookupKey, h2, ih]

theorem lookupKey_replaceKey_self {k : String} {l : List (String × CacheEntry V)}
    (e : CacheEntry V) (h : (lookupKey k l).isSome) :
    lookupKey k (replaceKey k e l) = some e := by
  induction l with
  | nil => simp [lookupKey] at h
  | cons kv rest ih =>
    by_cases hk : kv.1 = k
    · simp [replaceKey, lookupKey, hk]
    · simp only [lookupKey, if_neg hk] at h
      simp [replaceKey, lookupKey, hk, ih h]

theorem length_replaceKey (k : String) (e : CacheEntry V)
    (l : List (String × CacheEntry V)) :
    (replaceKey k e l).length = l.length := by
  induction l with
  | nil => rfl
  | cons kv rest ih =>
    by_cases hk : kv.1 = k <;> simp [replaceKey, hk, ih]

theorem lookupKey_append_of_none {k : String} {l₁ l₂ : List (String × CacheEntry V)}
    (h : lookupKey k l₁ = none) :
    lookupKey k (l₁ ++ l₂) = lookupKey k l₂ := by
  induction l₁ with
  | nil => rfl
  | cons kv rest ih =>
    simp only [lookupKey] at h ⊢
    by_cases hk : kv.1 = k
    · simp [hk] at h
    · simp [hk] at h ⊢
      exact ih h

theorem insertKey_of_lookup_none {k : String} {l : List (String × CacheEntry V)}
    (e : CacheEntry V) (h : lookupKey k l = none) :
    insertKey k e l = l ++ [(k, e)] := by
  simp [insertKey, h]

theorem lookupKey_insertKey_self (k : String) (e : CacheEntry V)
    (l : List (String × CacheEntry V)) :
    lookupKey k (insertKey k e l) = some e := by
  by_cases h : (lookupKey k l).isSome
  · simp [insertKey, h, lookupKey_replaceKey_self e h]
  · have hn : lookupKey k l = none := by
      cases hx : lookupKey k l
      · rfl
      · simp [hx] at h
    rw [insertKey_of_lookup_none e hn, lookupKey_append_of_none hn]
    simp [lookupKey]

theorem length_insertKey (k : String) (e : CacheEntry V)
    (l : List (String × CacheEntry V)) :
    (insertKey k e l).length =
      if (lookupKey k l).isSome then l.length else l.length + 1 := by
  by_cases h : (lookupKey k l).isSome
  · simp [insertKey, h, length_replaceKey]
  · simp [insertKey, h]

/-! ### LRU selection lemmas -/

theorem lruEntry?_eq_none {l : List (String × CacheEntry V)} :
    lruEntry? l = none ↔ l = [] := by
  cases l with
  | nil => simp [lruEntry?]
  | cons kv rest =>
    simp only [lruEntry?]
    cases lruEntry? rest with
    | none => simp
    | some best =>
      by_cases h : best.2.last_used < kv.2.last_used <;> simp [h]

theorem lruEntry?_mem {l : List (String × CacheEntry V)}
    {kv : String × CacheEntry V} (h : lruEntry? l = some kv) : kv ∈ l := by
  induction l with
  | nil => simp [lruEntry?] at h
  | cons a rest ih =>
    cases hr : lruEntry? rest with
    | none =>
      simp only [lruEntry?, hr, Option.some.injEq] at h
      exact h ▸ List.mem_cons_self a rest
    | some best =>
      simp only [lruEntry?, hr] at h
      by_cases hlt : best.2.last_used < a.2.last_used
      · rw [if_pos hlt] at h
        injection h with h
        exact List.mem_cons_of_mem a (ih (h ▸ hr))
      · rw [if_neg hlt] at h
        injection h with h
        exact h ▸ List.mem_cons_self a rest

theorem lruEntry?_min {l : List (String × CacheEntry V)}
    {kv : String × CacheEntry V} (h : lruEntry? l = some kv) :
    ∀ x ∈ l, kv.2.last_used ≤ x.2.last_used := by
  induction l generalizing kv with
  | nil => simp [lruEntry?] at h
  | cons a rest ih =>
    cases hr : lruEntry? rest with
    | none =>
      have hnil : rest = [] := lruEntry?_eq_none.mp hr
      subst hnil
      simp only [lruEntry?, Option.some.injEq] at h
      subst h
      intro x hx
      simp only [List.mem_singleton] at hx
      subst hx
      exact Nat.le_refl _
    | some best =>
      simp only [lruEntry?, hr] at h
      by_cases hlt : best.2.last_used < a.2.last_used
      · rw [if_pos hlt] at h
        injection h with h
        subst h
        intro x hx
        rcases List.mem_cons.mp hx with hx | hx
        · subst hx; exact Nat.le_of_lt hlt
        · exact ih hr x hx
      · rw [if_neg hlt] at h
        injection h with h
        subst h
        intro x hx
        rcases List.mem_cons.mp hx with hx | hx
        · subst hx; exact Nat.le_refl _
        · exact Nat.le_trans (Nat.not_lt.mp hlt) (ih hr x hx)

theorem lruEntry?_cons_of_lt {a : String × CacheEntry V}
    {l : List (String × CacheEntry V)}
    (h : ∀ x ∈ l, a.2.last_used < x.2.last_used) :
    lruEntry? (a :: l) = some a := by
  simp only [lruEntry?]
  cases hr : lruEntry? l with
  | none => rfl
  | some best =>
    have hb : best ∈ l := lruEntry?_mem hr
    have : ¬ best.2.last_used < a.2.last_used := Nat.not_lt.mpr (Nat.le_of_lt (h best hb))
    simp [this]

/-! ### Window lemmas (runs of fresh sets) -/

theorem window_length (now ttl i : Nat) (l : List (String × V)) :
    (window now ttl i l).length = l.length := by
  induction l generalizing i with
  | nil => rfl
  | cons kv rest ih => simp [window, ih]

theorem window_append (now ttl i : Nat) (l₁ l₂ : List (String × V)) :
    window now ttl i (l₁ ++ l₂) =
      window now ttl i l₁ ++ window now ttl (i + l₁.length) l₂ := by
  induction l₁ generalizing i with
  | nil => simp [window]
  | cons kv rest ih =>
    simp only [List.cons_append, window, List.length_cons, List.append_eq]
    rw [ih]
    have : i + 1 + rest.length = i + (rest.length + 1) := by omega
    rw [this]

theorem window_map_fst (now ttl i : Nat) (l : List (String × V)) :
    (window now ttl i l).map Prod.fst = l.map Prod.fst := by
  induction l generalizing i with
  | nil => rfl
  | cons kv rest ih => simp [window, ih]

theorem mem_window_last_used {now ttl i : Nat} {l : List (String × V)}
    {x : String × CacheEntry V} (h : x ∈ window now ttl i l) :
    i ≤ x.2.last_used := by
  induction l generalizing i with
  | nil => simp [window] at h
  | cons kv rest ih =>
    simp only [window, List.mem_cons] at h
    rcases h with h | h
    · subst h; exact Nat.le_refl _
    · exact Nat.le_trans (Nat.le_succ i) (ih h)

theorem lookupKey_isSome_of_mem {l : List (String × CacheEntry V)}
    {kv : String × CacheEntry V} (h : kv ∈ l) : (lookupKey kv.1 l).isSome := by
  induction l with
  | nil => simp at h
  | cons a rest ih =>
    rcases List.mem_cons.mp h with h | h
    · subst h; simp [lookupKey]
    · by_cases ha : a.1 = kv.1
      · simp [lookupKey, ha]
      · simp [lookupKey, ha, ih h]

theorem lookupKey_invalidatePattern (pat k : String) (c : Cache V) :
    lookupKey k (invalidatePattern pat c).store =
      if containsSubstr k pat then none else lookupKey k c.store := by
  have h := lookupKey_filter (fun key => ! containsSubstr key pat) k c.store
  simp only [invalidatePattern]
  rw [h]
  by_cases hc : containsSubstr k pat <;> simp [hc]

/-- C7: invalidate_pattern removes exactly the keys that contain the pattern
as a substring, adds the number removed to invalidations, sets current_size
to the new store size, and leaves every non-matching binding (value,
expires_at and last_used included) untouched. -/
theorem invalidatePattern_spec (pat : String) (c : Cache V) :
    (invalidatePattern pat c).store
      = c.store.filter (fun kv => ! containsSubstr kv.1 pat)
    ∧ (∀ k, lookupKey k (invalidatePattern pat c).store =
        if containsSubstr k pat then none else lookupKey k c.store)
    ∧ (invalidatePattern pat c).metrics.invalidations
      = c.metrics.invalidations +
          (c.store.length - (c.store.filter (fun kv => ! containsSubstr kv.1 pat)).length)
    ∧ (invalidatePattern pat c).metrics.current_size
      = (invalidatePattern pat c).store.length :=
  ⟨rfl, fun k => lookupKey_invalidatePattern pat k c, rfl, rfl⟩

/-- C4: under the rules actually wired into the background task, a
PaymentDetected event is exactly an invalidate_pattern sweep with the
interpolated pattern corridor:id, an AdminInvalidate event exactly an
invalidate_pattern sweep with the given pattern, and a pattern sweep removes
exactly the keys containing the pattern as a substring and no others. -/
theorem event_rules_spec (now : Nat) (cid pat : String) (c : Cache V) :
    handleEvent now (CacheInvalidationEvent.paymentDetected cid) c
      = some (invalidatePattern (("corridor:") ++ cid) c)
    ∧ handleEvent now (CacheInvalidationEvent.adminInvalidate pat) c
      = some (invalidatePattern pat c)
    ∧ (∀ k, lookupKey k (invalidatePattern pat c).store =
        if containsSubstr k pat then none else lookupKey k c.store) :=
  ⟨rfl, rfl, fun k => lookupKey_invalidatePattern pat k c⟩

/-- C5: the MemoryPressure handler is not total: with capacity 2 and
target_size 3 the final metrics update computes evictions +
(capacity - target_size) on usize, which underflows; the handler fails
instead of completing, contradicting the claimed infallibility. -/
theorem memoryPressure_underflow :
    handleEvent 0 (CacheInvalidationEvent.memoryPressure 3) (initCache Nat 2) = none := rfl

/-- C9: invalidate always adds one to invalidations — also when the key is
absent and nothing was removed — and reconciles current_size to the new
store length. -/
theorem invalidate_spec (k : String) (c : Cache V) :
    (invalidate k c).metrics.invalidations = c.metrics.invalidations + 1
    ∧ (invalidate k c).metrics.current_size = (invalidate k c).store.length
    ∧ (invalidate k c).store = eraseKey k c.store
    ∧ (lookupKey k c.store = none → (invalidate k c).store = c.store) := by
  refine ⟨rfl, rfl, rfl, ?_⟩
  intro h
  simp only [invalidate]
  exact eraseKey_of_lookup_none h

/-- Witness for C9 at a concrete input: invalidating an absent key on an
empty cache still counts one invalidation and removes nothing. -/
theorem invalidate_spec_witness :
    lookupKey ("absent") (initCache Nat 4).store = none
    ∧ (invalidate ("absent") (initCache Nat 4)).metrics.invalidations = 1
    ∧ (invalidate ("absent") (initCache Nat 4)).store = (initCache Nat 4).store := by
  refine ⟨rfl, ?_, ?_⟩
  · exact (invalidate_spec ("absent") (initCache Nat 4)).1
  · exact (invalidate_spec ("absent") (initCache Nat 4)).2.2.2 rfl

/-! ### Metrics bookkeeping lemmas -/

theorem evictLru_metrics (c : Cache V) :
    (evictLru c).metrics.invalidations = c.metrics.invalidations
    ∧ (evictLru c).metrics.hits = c.metrics.hits
    ∧ (evictLru c).metrics.misses = c.metrics.misses
    ∧ (evictLru c).metrics.warm_ups = c.metrics.warm_ups
    ∧ (c.capacity < c.store.length →
        (evictLru c).metrics.evictions = c.metrics.evictions + 1)
    ∧ (c.store.length ≤ c.capacity → evictLru c = c)
    ∧ (evictLru c).clock = c.clock
    ∧ (evictLru c).capacity = c.capacity := by
  unfold evictLru
  split
  · rename_i h
    exact ⟨rfl, rfl, rfl, rfl, fun hc => absurd hc (Nat.not_lt.mpr h), fun _ => rfl, rfl, rfl⟩
  · rename_i h
    exact ⟨rfl, rfl, rfl, rfl, fun _ => rfl, fun hc => absurd hc h, rfl, rfl⟩

theorem set_metrics (now : Nat) (k : String) (v : V) (ttl : Nat) (c : Cache V) :
    (set now k v ttl c).metrics.invalidations = c.metrics.invalidations
    ∧ (set now k v ttl c).metrics.hits = c.metrics.hits
    ∧ (set now k v ttl c).metrics.misses = c.metrics.misses
    ∧ (set now k v ttl c).metrics.warm_ups = c.metrics.warm_ups
    ∧ (set now k v ttl c).capacity = c.capacity := by
  simp only [set]
  split
  · exact ⟨(evictLru_metrics _).1, (evictLru_metrics _).2.1, (evictLru_metrics _).2.2.1,
      (evictLru_metrics _).2.2.2.1, (evictLru_metrics _).2.2.2.2.2.2.2⟩
  · exact ⟨rfl, rfl, rfl, rfl, rfl⟩

theorem get_metrics (now : Nat) (k : String) (c : Cache V) :
    ((get now k c).2).metrics.invalidations = c.metrics.invalidations
    ∧ ((get now k c).2).metrics.evictions = c.metrics.evictions
    ∧ ((get now k c).2).metrics.warm_ups = c.metrics.warm_ups := by
  cases h : lookupKey k c.store with
  | none => simp [get, h]
  | some e =>
    simp only [get, h]
    by_cases he : e.expires_at < now
    · rw [if_pos he]; exact ⟨rfl, rfl, rfl⟩
    · rw [if_neg he]; exact ⟨rfl, rfl, rfl⟩

theorem sweepTick_metrics (now : Nat) (c : Cache V) :
    (sweepTick now c).metrics.invalidations =
      c.metrics.invalidations +
        (c.store.length - (c.store.filter (fun kv => ! kv.2.is_expired now)).length)
    ∧ (sweepTick now c).metrics.evictions = c.metrics.evictions
    ∧ (sweepTick now c).metrics.warm_ups = c.metrics.warm_ups := by
  simp only [sweepTick]
  split
  · exact ⟨rfl, rfl, rfl⟩
  · rename_i hr
    have h0 : c.store.length -
        (c.store.filter (fun kv => ! kv.2.is_expired now)).length = 0 := by omega
    rw [h0]
    exact ⟨rfl, rfl, rfl⟩

/-- C6 counterexample: a TtlSweep bus event removes an expired entry (the
store becomes empty) yet leaves the invalidations counter at 0, not 1. -/
theorem ttlSweep_event_keeps_invalidations_cex :
    (handleEvent 10 CacheInvalidationEvent.ttlSweep
        { capacity := 10
          store := [(("k"), { value := (0 : Nat), expires_at := 5, last_used := 0 })]
          clock := 1
          metrics := { current_size := 1 } }).map
        (fun c => (c.store.length, c.metrics.invalidations)) = some (0, 0)
    ∧ some ((0 : Nat), (0 : Nat)) ≠ some ((0 : Nat), (1 : Nat)) := by
  exact ⟨rfl, by decide⟩

/-- C6 (amended): invalidations grows only through explicit removals,
pattern sweeps, flushes and timer-driven TTL sweeps (each adding the count
removed); the TtlSweep bus event removes expired entries without touching
invalidations; LRU eviction and MemoryPressure handling only grow evictions
and never invalidations. -/
theorem invalidations_sources_spec (V : Type) :
    (∀ (now : Nat) (k : String) (v : V) (ttl : Nat) (c : Cache V),
        (set now k v ttl c).metrics.invalidations = c.metrics.invalidations)
    ∧ (∀ (now : Nat) (k : String) (c : Cache V),
        ((get now k c).2).metrics.invalidations = c.metrics.invalidations)
    ∧ (∀ (k : String) (c : Cache V),
        (invalidate k c).metrics.invalidations = c.metrics.invalidations + 1)
    ∧ (∀ (pat : String) (c : Cache V),
        (invalidatePattern pat c).metrics.invalidations =
          c.metrics.invalidations +
            (c.store.length - (c.store.filter (fun kv => ! containsSubstr kv.1 pat)).length))
    ∧ (∀ c : Cache V,
        (flush c).metrics.invalidations = c.metrics.invalidations + c.store.length)
    ∧ (∀ (now : Nat) (c : Cache V),
        (sweepTick now c).metrics.invalidations =
          c.metrics.invalidations +
            (c.store.length - (c.store.filter (fun kv => ! kv.2.is_expired now)).length))
    ∧ (∀ (now : Nat) (c c' : Cache V),
        handleEvent now CacheInvalidationEvent.ttlSweep c = some c' →
        c'.metrics.invalidations = c.metrics.invalidations)
    ∧ (∀ (now target : Nat) (c c' : Cache V),
        handleEvent now (CacheInvalidationEvent.memoryPressure target) c = some c' →
        c'.metrics.invalidations = c.metrics.invalidations
        ∧ c'.metrics.evictions = c.metrics.evictions + (c.capacity - target))
    ∧ (∀ c : Cache V,
        (evictLru c).metrics.invalidations = c.metrics.invalidations
        ∧ (c.capacity < c.store.length →
            (evictLru c).metrics.evictions = c.metrics.evictions + 1)) := by
  refine ⟨fun now k v ttl c => (set_metrics now k v ttl c).1,
         fun now k c => (get_metrics now k c).1,
         fun k c => rfl,
         fun pat c => rfl,
         fun c => rfl,
         fun now c => (sweepTick_metrics now c).1,
         ?_, ?_,
         fun c => ⟨(evictLru_metrics c).1, (evictLru_metrics c).2.2.2.2.1⟩⟩
  · intro now c c' h
    simp only [handleEvent, Option.some.injEq] at h
    subst h
    rfl
  · intro now target c c' h
    simp only [handleEvent] at h
    by_cases ht : target ≤ c.capacity
    · rw [if_pos ht] at h
      simp only [Option.some.injEq] at h
      subst h
      exact ⟨rfl, rfl⟩
    · rw [if_neg ht] at h
      simp at h

/-- Witness for C6: a MemoryPressure event within capacity leaves
invalidations unchanged and advances evictions by capacity - target. -/
theorem invalidations_sources_spec_witness :
    (handleEvent 0 (CacheInvalidationEvent.memoryPressure 1) (initCache Nat 3)).map
        (fun c => (c.metrics.invalidations, c.metrics.evictions)) = some (0, 2) := by
  cases hx : handleEvent 0 (CacheInvalidationEvent.memoryPressure 1) (initCache Nat 3) with
  | none => exact absurd hx (by decide)
  | some c' =>
    have h := (invalidations_sources_spec Nat).2.2.2.2.2.2.2.1 0 1 (initCache Nat 3) c' hx
    simp only [Option.map, hx]
    rw [h.1, h.2]
    rfl

/-! ### warm_ups lemmas -/

theorem handleEvent_warm_ups (now : Nat) (ev : CacheInvalidationEvent) (c c' : Cache V)
    (h : handleEvent now ev c = some c') :
    c'.metrics.warm_ups = c.metrics.warm_ups := by
  cases ev with
  | paymentDetected cid =>
    simp only [handleEvent, Option.some.injEq] at h; subst h; rfl
  | anchorStatusChanged aid =>
    simp only [handleEvent, Option.some.injEq] at h; subst h; rfl
  | adminInvalidate pat =>
    simp only [handleEvent, Option.some.injEq] at h; subst h; rfl
  | ttlSweep =>
    simp only [handleEvent, Option.some.injEq] at h; subst h; rfl
  | memoryPressure target =>
    simp only [handleEvent] at h
    by_cases ht : target ≤ c.capacity
    · rw [if_pos ht] at h
      simp only [Option.some.injEq] at h
      subst h; rfl
    · rw [if_neg ht] at h
      simp at h

theorem applyOp_warm_ups (op : CacheOp V) (c : Cache V) :
    (applyOp op c).metrics.warm_ups = c.metrics.warm_ups := by
  cases op with
  | setOp now k v ttl => exact (set_metrics now k v ttl c).2.2.2.1
  | getOp now k => exact (get_metrics now k c).2.2
  | invalidateOp k => rfl
  | invalidatePatternOp pat => rfl
  | flushOp => rfl
  | sweepTickOp now => exact (sweepTick_metrics now c).2.2
  | eventOp now ev =>
    simp only [applyOp]
    cases hx : handleEvent now ev c with
    | some c' => exact handleEvent_warm_ups now ev c c' hx
    | none => cases ev <;> rfl

theorem foldl_applyOp_warm_ups (ops : List (CacheOp V)) (c : Cache V) :
    (ops.foldl (fun acc op => applyOp op acc) c).metrics.warm_ups
      = c.metrics.warm_ups := by
  induction ops generalizing c with
  | nil => rfl
  | cons op rest ih =>
    simp only [List.foldl_cons]
    rw [ih (applyOp op c), applyOp_warm_ups op c]

theorem foldl_set_warm_ups (now : Nat) (entries : List (String × V × Nat)) (c : Cache V) :
    ((entries.foldl (fun acc e => set now e.1 e.2.1 e.2.2 acc) c)).metrics.warm_ups
      = c.metrics.warm_ups := by
  induction entries generalizing c with
  | nil => rfl
  | cons e rest ih =>
    simp only [List.foldl_cons]
    rw [ih (set now e.1 e.2.1 e.2.2 c), (set_metrics now e.1 e.2.1 e.2.2 c).2.2.2.1]

/-- C10: no cache operation ever writes warm_ups — warm_cache inserts its
entries via set and returns their number while leaving warm_ups unchanged —
so warm_ups stays 0 for the whole lifetime of a cache. -/
theorem warm_ups_never_written (V : Type) :
    (∀ (op : CacheOp V) (c : Cache V),
        (applyOp op c).metrics.warm_ups = c.metrics.warm_ups)
    ∧ (∀ (cap : Nat) (ops : List (CacheOp V)),
        (ops.foldl (fun acc op => applyOp op acc) (initCache V cap)).metrics.warm_ups = 0)
    ∧ (∀ (now : Nat) (entries : List (String × V × Nat)) (c : Cache V),
        (warmCache now entries c).1 = entries.length
        ∧ (warmCache now entries c).2
            = entries.foldl (fun acc e => set now e.1 e.2.1 e.2.2 acc) c
        ∧ ((warmCache now entries c).2).metrics.warm_ups = c.metrics.warm_ups) := by
  refine ⟨applyOp_warm_ups, ?_, ?_⟩
  · intro cap ops
    rw [foldl_applyOp_warm_ups ops (initCache V cap)]
    rfl
  · intro now entries c
    exact ⟨rfl, rfl, foldl_set_warm_ups now entries c⟩

/-! ### C1: get semantics -/

/-- C1: get returns the stored value precisely when the key is present and
now ≤ expires_at; a hit rewrites the entry's last_used to the freshly drawn
clock value (the clock advances by one) and bumps hits; an expired lookup
removes the entry and bumps misses; an absent key bumps misses; and right
after a set that triggers no eviction, a get within the ttl returns the
value, after the ttl it does not. -/
theorem get_spec (V : Type) :
    (∀ (now : Nat) (k : String) (c : Cache V) (e : CacheEntry V),
        lookupKey k c.store = some e → now ≤ e.expires_at →
        get now k c = (some e.value,
          { c with store := replaceKey k { e with last_used := c.clock } c.store
                   clock := c.clock + 1
                   metrics := { c.metrics with hits := c.metrics.hits + 1 } }))
    ∧ (∀ (now : Nat) (k : String) (c : Cache V) (e : CacheEntry V),
        lookupKey k c.store = some e → e.expires_at < now →
        get now k c = (none,
          { c with store := eraseKey k c.store
                   metrics := { c.metrics with misses := c.metrics.misses + 1 } }))
    ∧ (∀ (now : Nat) (k : String) (c : Cache V),
        lookupKey k c.store = none →
        get now k c = (none,
          { c with metrics := { c.metrics with misses := c.metrics.misses + 1 } }))
    ∧ (∀ (now : Nat) (k : String) (c : Cache V),
        ((get now k c).1).isSome = true ↔
          ∃ e, lookupKey k c.store = some e ∧ now ≤ e.expires_at)
    ∧ (∀ (now now' ttl : Nat) (k : String) (v : V) (c : Cache V),
        c.store.length < c.capacity →
        (get now' k (set now k v ttl c)).1
          = if now' ≤ now + ttl then some v else none) := by
  have hhit : ∀ (now : Nat) (k : String) (c : Cache V) (e : CacheEntry V),
      lookupKey k c.store = some e → now ≤ e.expires_at →
      get now k c = (some e.value,
        { c with store := replaceKey k { e with last_used := c.clock } c.store
                 clock := c.clock + 1
                 metrics := { c.metrics with hits := c.metrics.hits + 1 } }) := by
    intro now k c e hl hle
    simp only [get, hl]
    rw [if_neg (Nat.not_lt.mpr hle)]
  have hexp : ∀ (now : Nat) (k : String) (c : Cache V) (e : CacheEntry V),
      lookupKey k c.store = some e → e.expires_at < now →
      get now k c = (none,
        { c with store := eraseKey k c.store
                 metrics := { c.metrics with misses := c.metrics.misses + 1 } }) := by
    intro now k c e hl hlt
    simp only [get, hl]
    rw [if_pos hlt]
  have hmiss : ∀ (now : Nat) (k : String) (c : Cache V),
      lookupKey k c.store = none →
      get now k c = (none,
        { c with metrics := { c.metrics with misses := c.metrics.misses + 1 } }) := by
    intro now k c hl
    simp only [get, hl]
  refine ⟨hhit, hexp, hmiss, ?_, ?_⟩
  · intro now k c
    cases hl : lookupKey k c.store with
    | none =>
      rw [hmiss now k c hl]
      simp
    | some e =>
      by_cases he : e.expires_at < now
      · rw [hexp now k c e hl he]
        simp only [Option.isSome_none, Bool.false_eq_true, false_iff]
        rintro ⟨e', he', hle⟩
        injection he' with he'
        subst he'
        exact absurd he (Nat.not_lt.mpr hle)
      · rw [hhit now k c e hl (Nat.not_lt.mp he)]
        simp only [Option.isSome_some, true_iff]
        exact ⟨e, rfl, Nat.not_lt.mp he⟩
  · intro now now' ttl k v c hlen
    have hsize : (insertKey k { value := v, expires_at := now + ttl, last_used := c.clock }
        c.store).length ≤ c.capacity := by
      rw [length_insertKey]
      split
      · omega
      · omega
    have hset : (set now k v ttl c).store
        = insertKey k { value := v, expires_at := now + ttl, last_used := c.clock } c.store := by
      simp only [set]
      rw [if_neg (Nat.not_lt.mpr hsize)]
    have hlook : lookupKey k ((set now k v ttl c).store)
        = some { value := v, expires_at := now + ttl, last_used := c.clock } := by
      rw [hset]
      exact lookupKey_insertKey_self k _ c.store
    by_cases hnow : now' ≤ now + ttl
    · rw [hhit now' k (set now k v ttl c) _ hlook hnow, if_pos hnow]
    · rw [hexp now' k (set now k v ttl c) _ hlook (Nat.not_le.mp hnow), if_neg hnow]

/-- Witness for C1 at concrete inputs: with capacity 1 and an empty store,
after set at time 0 with ttl 10, a get at time 5 hits and a get at time 11
misses. -/
theorem get_spec_witness :
    (initCache Nat 1).store.length < (initCache Nat 1).capacity
    ∧ (get 5 ("k") (set 0 ("k") 42 10 (initCache Nat 1))).1 = some 42
    ∧ (get 11 ("k") (set 0 ("k") 42 10 (initCache Nat 1))).1 = none := by
  refine ⟨by decide, ?_, ?_⟩
  · rw [(get_spec Nat).2.2.2.2 0 5 10 ("k") 42 (initCache Nat 1) (by decide)]
    decide
  · rw [(get_spec Nat).2.2.2.2 0 11 10 ("k") 42 (initCache Nat 1) (by decide)]
    decide

/-! ### C2: apply_event idempotence (spec-modelled state builder) -/

/-- C2: applying the same event twice equals applying it once — the second
call finds the id in the idempotency index, reports skipped=true and mutates
nothing — while a first application from a fresh id advances
events_processed by exactly one. -/
theorem applyEvent_idempotent (e : ContractEvent) (b : StateBuilder) :
    (applyEvent e ((applyEvent e b).2)).2 = (applyEvent e b).2
    ∧ (applyEvent e ((applyEvent e b).2)).1.skipped = true
    ∧ (e.id ∉ b.processedEvents →
        ((applyEvent e b).2).events_processed = b.events_processed + 1
        ∧ (applyEvent e b).1.skipped = false) := by
  by_cases hm : e.id ∈ b.processedEvents
  · simp [applyEvent, hm]
  · simp [applyEvent, hm]

/-- Witness for C2 at a concrete event and a fresh builder. -/
theorem applyEvent_idempotent_witness :
    (("e0") ∉ ([] : List String))
    ∧ ((applyEvent
          { id := ("e0"), ledger_sequence := 1000, transaction_hash := ("tx-0")
            contract_id := ("c"), event_type := ("snapshot_submitted")
            data := some (1000, ("h0")), timestamp := 0, network := ("testnet") }
          ((applyEvent
            { id := ("e0"), ledger_sequence := 1000, transaction_hash := ("tx-0")
              contract_id := ("c"), event_type := ("snapshot_submitted")
              data := some (1000, ("h0")), timestamp := 0, network := ("testnet") }
            { appState := { ledger := 0, snapshots := [] }
              processedEvents := [], events_processed := 0 }).2)).2
        = (applyEvent
            { id := ("e0"), ledger_sequence := 1000, transaction_hash := ("tx-0")
              contract_id := ("c"), event_type := ("snapshot_submitted")
              data := some (1000, ("h0")), timestamp := 0, network := ("testnet") }
            { appState := { ledger := 0, snapshots := [] }
              processedEvents := [], events_processed := 0 }).2)
    ∧ ((applyEvent
          { id := ("e0"), ledger_sequence := 1000, transaction_hash := ("tx-0")
            contract_id := ("c"), event_type := ("snapshot_submitted")
            data := some (1000, ("h0")), timestamp := 0, network := ("testnet") }
          { appState := { ledger := 0, snapshots := [] }
            processedEvents := [], events_processed := 0 }).2).events_processed = 1 := by
  refine ⟨by decide, ?_, ?_⟩
  · exact (applyEvent_idempotent
      { id := ("e0"), ledger_sequence := 1000, transaction_hash := ("tx-0")
        contract_id := ("c"), event_type := ("snapshot_submitted")
        data := some (1000, ("h0")), timestamp := 0, network := ("testnet") }
      { appState := { ledger := 0, snapshots := [] }
        processedEvents := [], events_processed := 0 }).1
  · exact ((applyEvent_idempotent
      { id := ("e0"), ledger_sequence := 1000, transaction_hash := ("tx-0")
        contract_id := ("c"), event_type := ("snapshot_submitted")
        data := some (1000, ("h0")), timestamp := 0, network := ("testnet") }
      { appState := { ledger := 0, snapshots := [] }
        processedEvents := [], events_processed := 0 }).2.2 (by decide)).1

/-! ### C3: set, capacity eviction, LRU progress -/

theorem evictLru_eq_of_lru (c : Cache V) (kv : String × CacheEntry V)
    (h1 : ¬ c.store.length ≤ c.capacity) (h2 : lruEntry? c.store = some kv) :
    evictLru c = { c with store := eraseKey kv.1 c.store
                          metrics := { c.metrics with
                                       evictions := c.metrics.evictions + 1
                                       current_size := (eraseKey kv.1 c.store).length } } := by
  simp only [evictLru, h2]
  rw [if_neg h1]

theorem set_overwrite (now : Nat) (k : String) (v : V) (ttl : Nat) (c : Cache V)
    (hlen : c.store.length ≤ c.capacity) (hcap : 0 < c.capacity)
    (hclk : ∀ kv ∈ c.store, kv.2.last_used < c.clock) :
    lookupKey k ((set now k v ttl c).store)
      = some { value := v, expires_at := now + ttl, last_used := c.clock }
    ∧ (set now k v ttl c).store.length ≤ c.capacity
    ∧ (set now k v ttl c).clock = c.clock + 1 := by
  by_cases hpres : (lookupKey k c.store).isSome
  · have hsize : (insertKey k { value := v, expires_at := now + ttl, last_used := c.clock }
        c.store).length ≤ c.capacity := by
      rw [length_insertKey, if_pos hpres]; exact hlen
    have hset : set now k v ttl c
        = { c with clock := c.clock + 1
                   store := insertKey k
                     { value := v, expires_at := now + ttl, last_used := c.clock } c.store
                   metrics := { c.metrics with current_size := (insertKey k
                     { value := v, expires_at := now + ttl, last_used := c.clock }
                     c.store).length } } := by
      simp only [set]
      rw [if_neg (Nat.not_lt.mpr hsize)]
    rw [hset]
    exact ⟨lookupKey_insertKey_self k _ c.store, hsize, rfl⟩
  · have hnone : lookupKey k c.store = none := by
      cases hx : lookupKey k c.store
      · rfl
      · rw [hx] at hpres; simp at hpres
    have hins : insertKey k { value := v, expires_at := now + ttl, last_used := c.clock } c.store
        = c.store ++ [(k, { value := v, expires_at := now + ttl, last_used := c.clock })] :=
      insertKey_of_lookup_none _ hnone
    by_cases hlt : c.store.length < c.capacity
    · have hsize : (insertKey k { value := v, expires_at := now + ttl, last_used := c.clock }
          c.store).length ≤ c.capacity := by
        rw [length_insertKey]
        split
        · exact hlen
        · omega
      have hset : set now k v ttl c
          = { c with clock := c.clock + 1
                     store := insertKey k
                       { value := v, expires_at := now + ttl, last_used := c.clock } c.store
                     metrics := { c.metrics with current_size := (insertKey k
                       { value := v, expires_at := now + ttl, last_used := c.clock }
                       c.store).length } } := by
        simp only [set]
        rw [if_neg (Nat.not_lt.mpr hsize)]
      rw [hset]
      exact ⟨lookupKey_insertKey_self k _ c.store, hsize, rfl⟩
    · -- the store sits exactly at capacity: insertion is followed by one eviction
      have hcapeq : c.store.length = c.capacity := by omega
      have hsize : (insertKey k { value := v, expires_at := now + ttl, last_used := c.clock }
          c.store).length = c.capacity + 1 := by
        rw [length_insertKey, if_neg (by simpa using hnone)]
        omega
      have hset : set now k v ttl c
          = evictLru { c with clock := c.clock + 1
                              store := insertKey k
                                { value := v, expires_at := now + ttl, last_used := c.clock }
                                c.store
                              metrics := { c.metrics with current_size := (insertKey k
                                { value := v, expires_at := now + ttl, last_used := c.clock }
                                c.store).length } } := by
        simp only [set]
        rw [if_pos (by rw [hsize]; omega)]
      cases hlru : lruEntry? (insertKey k
          { value := v, expires_at := now + ttl, last_used := c.clock } c.store) with
      | none =>
        have := lruEntry?_eq_none.mp hlru
        rw [hins] at this
        simp at this
      | some m =>
        have hmem : m ∈ c.store ++
            [(k, { value := v, expires_at := now + ttl, last_used := c.clock })] := by
          rw [← hins]; exact lruEntry?_mem hlru
        have hmin := lruEntry?_min hlru
        -- the store is nonempty, and every old entry beats the fresh clock value
        obtain ⟨z, zs, hz⟩ : ∃ z zs, c.store = z :: zs := by
          apply List.exists_cons_of_ne_nil
          intro h0
          rw [h0] at hcapeq
          simp at hcapeq
          omega
        have hzmem : z ∈ insertKey k
            { value := v, expires_at := now + ttl, last_used := c.clock } c.store := by
          rw [hins, hz]; simp
        have hmlt : m.2.last_used < c.clock := by
          have h1 := hmin z hzmem
          have h2 := hclk z (by rw [hz]; simp)
          omega
        have hmold : m ∈ c.store := by
          rcases List.mem_append.mp hmem with h | h
          · exact h
          · simp only [List.mem_singleton] at h
            rw [h] at hmlt
            simp at hmlt
        have hmk : m.1 ≠ k := by
          intro he
          have : k ∈ c.store.map Prod.fst := by
            rw [← he]
            exact List.mem_map_of_mem Prod.fst hmold
          exact lookupKey_eq_none.mp hnone this
        have hmem2 : m ∈ insertKey k
            { value := v, expires_at := now + ttl, last_used := c.clock } c.store := by
          rw [hins]; exact hmem
        have hsome := lookupKey_isSome_of_mem hmem2
        obtain ⟨e', he'⟩ := Option.isSome_iff_exists.mp hsome
        have herase : (eraseKey m.1 (insertKey k
            { value := v, expires_at := now + ttl, last_used := c.clock } c.store)).length + 1
            = c.capacity + 1 := by
          rw [← hsize]
          exact length_eraseKey_of_lookup he'
        rw [hset, evictLru_eq_of_lru _ m (by simp only [hsize]; omega) hlru]
        refine ⟨?_, ?_, rfl⟩
        · simp only
          rw [lookupKey_eraseKey_ne hmk]
          exact lookupKey_insertKey_self k _ c.store
        · simp only
          omega

theorem evictLru_removes_min (c : Cache V) (h : c.capacity < c.store.length)
    (hd : c.store.Pairwise (fun a b => a.2.last_used ≠ b.2.last_used)) :
    ∃ kv, kv ∈ c.store
      ∧ (evictLru c).store = eraseKey kv.1 c.store
      ∧ (∀ x ∈ c.store, x ≠ kv → kv.2.last_used < x.2.last_used)
      ∧ (evictLru c).metrics.evictions = c.metrics.evictions + 1 := by
  have hne : c.store ≠ [] := by
    intro h0
    rw [h0] at h
    simp at h
  cases hlru : lruEntry? c.store with
  | none => exact absurd (lruEntry?_eq_none.mp hlru) hne
  | some kv =>
    have hrw := evictLru_eq_of_lru c kv (Nat.not_le.mpr h) hlru
    refine ⟨kv, lruEntry?_mem hlru, by rw [hrw], ?_, by rw [hrw]⟩
    intro x hx hne'
    have hle := lruEntry?_min hlru x hx
    have hsym : Symmetric (fun a b : String × CacheEntry V =>
        a.2.last_used ≠ b.2.last_used) := fun a b hab => hab.symm
    have hneq := hd.forall hsym (lruEntry?_mem hlru) hx (fun he => hne' he.symm)
    omega

theorem set_window_step (now ttl s : Nat) (l : List (String × V)) (k : String) (v : V)
    (c : Cache V) (hs : c.store = window now ttl s l)
    (hclock : c.clock = s + l.length) (hlen : l.length ≤ c.capacity)
    (hk : k ∉ l.map Prod.fst) :
    (set now k v ttl c).store
      = (if l.length < c.capacity
         then window now ttl s (l ++ [(k, v)])
         else window now ttl (s + 1) ((l ++ [(k, v)]).drop 1))
    ∧ (set now k v ttl c).clock = c.clock + 1
    ∧ (set now k v ttl c).metrics.evictions
      = c.metrics.evictions + (if l.length < c.capacity then 0 else 1)
    ∧ (set now k v ttl c).capacity = c.capacity := by
  have hnone : lookupKey k c.store = none := by
    rw [hs]
    exact lookupKey_eq_none.mpr (by rw [window_map_fst]; exact hk)
  have hins : insertKey k { value := v, expires_at := now + ttl, last_used := c.clock } c.store
      = window now ttl s (l ++ [(k, v)]) := by
    rw [insertKey_of_lookup_none _ hnone, hs, window_append]
    simp [window, hclock]
  have hwinlen : (window now ttl s (l ++ [(k, v)])).length = l.length + 1 := by
    rw [window_length]; simp
  by_cases hlt : l.length < c.capacity
  · have hno : ¬ c.capacity <
        (insertKey k { value := v, expires_at := now + ttl, last_used := c.clock }
          c.store).length := by
      rw [hins, hwinlen]; omega
    have hset : set now k v ttl c
        = { c with clock := c.clock + 1
                   store := insertKey k
                     { value := v, expires_at := now + ttl, last_used := c.clock } c.store
                   metrics := { c.metrics with current_size := (insertKey k
                     { value := v, expires_at := now + ttl, last_used := c.clock }
                     c.store).length } } := by
      simp only [set]
      rw [if_neg hno]
    rw [hset]
    rw [if_pos hlt, if_pos hlt]
    exact ⟨hins, rfl, rfl, rfl⟩
  · have hpos : c.capacity <
        (insertKey k { value := v, expires_at := now + ttl, last_used := c.clock }
          c.store).length := by
      rw [hins, hwinlen]; omega
    have hset : set now k v ttl c
        = evictLru { c with clock := c.clock + 1
                            store := insertKey k
                              { value := v, expires_at := now + ttl, last_used := c.clock }
                              c.store
                            metrics := { c.metrics with current_size := (insertKey k
                              { value := v, expires_at := now + ttl, last_used := c.clock }
                              c.store).length } } := by
      simp only [set]
      rw [if_pos hpos]
    obtain ⟨z, zs, hz⟩ : ∃ z zs, l ++ [(k, v)] = z :: zs :=
      List.exists_cons_of_ne_nil (by simp)
    have hWin : window now ttl s (l ++ [(k, v)])
        = (z.1, { value := z.2, expires_at := now + ttl, last_used := s })
            :: window now ttl (s + 1) zs := by
      rw [hz]; rfl
    have hlru : lruEntry? (window now ttl s (l ++ [(k, v)]))
        = some (z.1, { value := z.2, expires_at := now + ttl, last_used := s }) := by
      rw [hWin]
      exact lruEntry?_cons_of_lt (fun x hx => mem_window_last_used hx)
    have herase : eraseKey z.1 (window now ttl s (l ++ [(k, v)]))
        = window now ttl (s + 1) zs := by
      rw [hWin]
      simp [eraseKey]
    rw [hset, evictLru_eq_of_lru _
        (z.1, { value := z.2, expires_at := now + ttl, last_used := s })
        (by simp only [hins, hwinlen]; omega) (by simp only [hins]; exact hlru)]
    rw [if_neg hlt, if_neg hlt]
    refine ⟨?_, rfl, rfl, rfl⟩
    simp only [hins, herase]
    rw [hz]
    rfl

theorem setFold_window (now ttl : Nat) (kvs : List (String × V)) :
    ∀ (c : Cache V) (s : Nat) (l : List (String × V)),
    c.store = window now ttl s l → c.clock = s + l.length →
    l.length ≤ c.capacity → ((l ++ kvs).map Prod.fst).Nodup →
    (kvs.foldl (fun acc kv => set now kv.1 kv.2 ttl acc) c).store
      = window now ttl (s + (l.length + kvs.length - c.capacity))
          ((l ++ kvs).drop (l.length + kvs.length - c.capacity))
    ∧ (kvs.foldl (fun acc kv => set now kv.1 kv.2 ttl acc) c).clock
      = s + l.length + kvs.length
    ∧ (kvs.foldl (fun acc kv => set now kv.1 kv.2 ttl acc) c).metrics.evictions
      = c.metrics.evictions + (l.length + kvs.length - c.capacity)
    ∧ (kvs.foldl (fun acc kv => set now kv.1 kv.2 ttl acc) c).capacity = c.capacity := by
  induction kvs with
  | nil =>
    intro c s l hs hclock hlen hnodup
    have h0 : l.length - c.capacity = 0 := by omega
    refine ⟨?_, ?_, ?_, rfl⟩
    · simp only [List.foldl_nil, List.length_nil, List.append_nil, Nat.add_zero]
      rw [h0]
      simpa only [Nat.add_zero, List.drop_zero] using hs
    · simp only [List.foldl_nil, List.length_nil, Nat.add_zero]
      exact hclock
    · simp only [List.foldl_nil, List.length_nil, Nat.add_zero]
      rw [h0]
      omega
  | cons x xs ih =>
    intro c s l hs hclock hlen hnodup
    have hassoc : (l ++ [x]) ++ xs = l ++ x :: xs := by simp
    have hk : x.1 ∉ l.map Prod.fst := by
      have hmap : ((l ++ x :: xs).map Prod.fst)
          = l.map Prod.fst ++ x.1 :: xs.map Prod.fst := by simp
      rw [hmap, List.nodup_append] at hnodup
      intro hmem
      exact hnodup.2.2 hmem (List.mem_cons_self x.1 (xs.map Prod.fst))
    have hstep := set_window_step now ttl s l x.1 x.2 c hs hclock hlen hk
    simp only [List.foldl_cons]
    by_cases hlt : l.length < c.capacity
    · rw [if_pos hlt, if_pos hlt] at hstep
      have ihc := ih (set now x.1 x.2 ttl c) s (l ++ [x])
        hstep.1
        (by
          rw [hstep.2.1, hclock]
          simp only [List.length_append, List.length_cons, List.length_nil]
          omega)
        (by
          rw [hstep.2.2.2]
          simp only [List.length_append, List.length_cons, List.length_nil]
          omega)
        (by rw [hassoc]; exact hnodup)
      rw [hstep.2.2.2] at ihc
      have hidx : s + ((l ++ [x]).length + xs.length - c.capacity)
          = s + (l.length + (x :: xs).length - c.capacity) := by
        simp only [List.length_append, List.length_cons, List.length_nil]
        omega
      have hargs : (l ++ [x]).length + xs.length - c.capacity
          = l.length + (x :: xs).length - c.capacity := by
        simp only [List.length_append, List.length_cons, List.length_nil]
        omega
      refine ⟨?_, ?_, ?_, ihc.2.2.2⟩
      · rw [ihc.1, hidx, hargs, hassoc]
      · rw [ihc.2.1]
        simp only [List.length_append, List.length_cons, List.length_nil]
        omega
      · rw [ihc.2.2.1, hstep.2.2.1]
        simp only [List.length_append, List.length_cons, List.length_nil]
        omega
    · rw [if_neg hlt, if_neg hlt] at hstep
      have hd1le : (1 : Nat) ≤ (l ++ [x]).length := by simp
      have hsub : List.Sublist ((((l ++ [x]).drop 1) ++ xs).map Prod.fst)
          (((l ++ [x]) ++ xs).map Prod.fst) :=
        ((List.drop_sublist 1 (l ++ [x])).append_right xs).map Prod.fst
      have ihc := ih (set now x.1 x.2 ttl c) (s + 1) ((l ++ [x]).drop 1)
        hstep.1
        (by
          rw [hstep.2.1, hclock]
          simp only [List.length_drop, List.length_append, List.length_cons, List.length_nil]
          omega)
        (by
          rw [hstep.2.2.2]
          simp only [List.length_drop, List.length_append, List.length_cons, List.length_nil]
          omega)
        (by
          refine List.Nodup.sublist hsub ?_
          rw [hassoc]
          exact hnodup)
      rw [hstep.2.2.2] at ihc
      have hidx : s + 1 + (((l ++ [x]).drop 1).length + xs.length - c.capacity)
          = s + (l.length + (x :: xs).length - c.capacity) := by
        simp only [List.length_drop, List.length_append, List.length_cons, List.length_nil]
        omega
      have hlist : ((((l ++ [x]).drop 1) ++ xs)).drop
            (((l ++ [x]).drop 1).length + xs.length - c.capacity)
          = (l ++ x :: xs).drop (l.length + (x :: xs).length - c.capacity) := by
        rw [← List.drop_append_of_le_length hd1le, List.drop_drop, hassoc]
        congr 1
        simp only [List.length_drop, List.length_append, List.length_cons, List.length_nil]
        omega
      refine ⟨?_, ?_, ?_, ihc.2.2.2⟩
      · rw [ihc.1, hidx, hlist]
      · rw [ihc.2.1]
        simp only [List.length_drop, List.length_append, List.length_cons, List.length_nil]
        omega
      · rw [ihc.2.2.1, hstep.2.2.1]
        simp only [List.length_drop, List.length_append, List.length_cons, List.length_nil]
        omega

/-- C3: set overwrites any existing entry with expires_at = now + ttl and a
fresh clock value; when an insertion pushes the store over capacity, one
synchronous eviction round removes the unique entry with the smallest
last_used (ties cannot arise: reachable stores carry pairwise distinct
last_used values), so set leaves at most capacity entries; and from an empty
cache, folding N distinct sets leaves exactly N - C evictions and the C most
recently inserted keys. -/
theorem set_lru_progress_spec (V : Type) :
    (∀ (now : Nat) (k : String) (v : V) (ttl : Nat) (c : Cache V),
        c.store.length ≤ c.capacity → 0 < c.capacity →
        (∀ kv ∈ c.store, kv.2.last_used < c.clock) →
        lookupKey k ((set now k v ttl c).store)
          = some { value := v, expires_at := now + ttl, last_used := c.clock }
        ∧ (set now k v ttl c).store.length ≤ c.capacity
        ∧ (set now k v ttl c).clock = c.clock + 1)
    ∧ (∀ c : Cache V, c.capacity < c.store.length →
        c.store.Pairwise (fun a b => a.2.last_used ≠ b.2.last_used) →
        ∃ kv, kv ∈ c.store
          ∧ (evictLru c).store = eraseKey kv.1 c.store
          ∧ (∀ x ∈ c.store, x ≠ kv → kv.2.last_used < x.2.last_used)
          ∧ (evictLru c).metrics.evictions = c.metrics.evictions + 1)
    ∧ (∀ (cap now ttl : Nat) (kvs : List (String × V)),
        (kvs.map Prod.fst).Nodup →
        (kvs.foldl (fun acc kv => set now kv.1 kv.2 ttl acc) (initCache V cap)).store
          = window now ttl (kvs.length - cap) (kvs.drop (kvs.length - cap))
        ∧ (kvs.foldl (fun acc kv => set now kv.1 kv.2 ttl acc)
            (initCache V cap)).metrics.evictions = kvs.length - cap
        ∧ ((kvs.foldl (fun acc kv => set now kv.1 kv.2 ttl acc) (initCache V cap)).store.map
            Prod.fst) = (kvs.drop (kvs.length - cap)).map Prod.fst) := by
  refine ⟨fun now k v ttl c h1 h2 h3 => set_overwrite now k v ttl c h1 h2 h3,
          fun c h1 h2 => evictLru_removes_min c h1 h2, ?_⟩
  intro cap now ttl kvs hnodup
  have h := setFold_window now ttl kvs (initCache V cap) 0 [] rfl rfl (by simp)
    (by simpa using hnodup)
  have h1 : (kvs.foldl (fun acc kv => set now kv.1 kv.2 ttl acc) (initCache V cap)).store
      = window now ttl (kvs.length - cap) (kvs.drop (kvs.length - cap)) := by
    simpa using h.1
  refine ⟨h1, by simpa [initCache] using h.2.2.1, ?_⟩
  rw [h1, window_map_fst]

/-- Witness for C3 at concrete inputs: capacity 1, two distinct sets — one
eviction happened and only the later key remains. -/
theorem set_lru_progress_spec_witness :
    ((([(("a"), 1), (("b"), 2)] : List (String × Nat)).map Prod.fst).Nodup)
    ∧ (([(("a"), 1), (("b"), 2)] : List (String × Nat)).foldl
        (fun acc kv => set 0 kv.1 kv.2 7 acc) (initCache Nat 1)).metrics.evictions = 1
    ∧ ((([(("a"), 1), (("b"), 2)] : List (String × Nat)).foldl
        (fun acc kv => set 0 kv.1 kv.2 7 acc) (initCache Nat 1)).store.map Prod.fst)
      = [("b")] := by
  have h := (set_lru_progress_spec Nat).2.2 1 0 7 [(("a"), 1), (("b"), 2)] (by decide)
  refine ⟨by decide, ?_, ?_⟩
  · simpa using h.2.1
  · rw [h.2.2]
    decide

/-! ### C8: the unique_id encoding -/

theorem natDigitsAux_irrel :
    ∀ (f1 f2 n : Nat), n < f1 → n < f2 → natDigitsAux f1 n = natDigitsAux f2 n := by
  intro f1
  induction f1 with
  | zero => intro f2 n h1 h2; omega
  | succ f1 ih =>
    intro f2 n h1 h2
    cases f2 with
    | zero => omega
    | succ f2 =>
      simp only [natDigitsAux]
      by_cases h10 : n < 10
      · rw [if_pos h10, if_pos h10]
      · rw [if_neg h10, if_neg h10]
        have hd : n / 10 < n := Nat.div_lt_self (by omega) (by omega)
        rw [ih f2 (n / 10) (by omega) (by omega)]

theorem natDigits_eq (n : Nat) :
    natDigits n = if n < 10 then [Nat.digitChar n]
      else natDigits (n / 10) ++ [Nat.digitChar (n % 10)] := by
  have hunf : natDigitsAux (n + 1) n = if n < 10 then [Nat.digitChar n]
      else natDigitsAux n (n / 10) ++ [Nat.digitChar (n % 10)] := rfl
  unfold natDigits
  rw [hunf]
  by_cases h10 : n < 10
  · rw [if_pos h10, if_pos h10]
  · rw [if_neg h10, if_neg h10]
    have hd : n / 10 < n := Nat.div_lt_self (by omega) (by omega)
    rw [natDigitsAux_irrel n (n / 10 + 1) (n / 10) (by omega) (by omega)]

theorem natDigits_ne_nil (n : Nat) : natDigits n ≠ [] := by
  rw [natDigits_eq]
  split
  · simp
  · simp

theorem digitChar_ne_colon : ∀ m, m < 10 → Nat.digitChar m ≠ ':' := by decide

theorem digitChar_inj10 :
    ∀ a, a < 10 → ∀ b, b < 10 → Nat.digitChar a = Nat.digitChar b → a = b := by decide

theorem natDigits_no_colon (n : Nat) : ∀ ch ∈ natDigits n, ch ≠ ':' := by
  induction n using Nat.strong_induction_on with
  | _ n ih =>
    rw [natDigits_eq]
    by_cases h10 : n < 10
    · rw [if_pos h10]
      intro ch hch
      simp only [List.mem_singleton] at hch
      subst hch
      exact digitChar_ne_colon n h10
    · rw [if_neg h10]
      intro ch hch
      rcases List.mem_append.mp hch with h | h
      · exact ih (n / 10) (Nat.div_lt_self (by omega) (by omega)) ch h
      · simp only [List.mem_singleton] at h
        subst h
        exact digitChar_ne_colon (n % 10) (Nat.mod_lt n (by omega))

theorem natDigits_injective : ∀ (a b : Nat), natDigits a = natDigits b → a = b := by
  intro a
  induction a using Nat.strong_induction_on with
  | _ a ih =>
    intro b h
    nth_rewrite 2 [natDigits_eq] at h
    nth_rewrite 1 [natDigits_eq] at h
    by_cases ha : a < 10 <;> by_cases hb : b < 10
    · rw [if_pos ha, if_pos hb] at h
      simp only [List.cons.injEq, and_true] at h
      exact digitChar_inj10 a ha b hb h
    · rw [if_pos ha, if_neg hb] at h
      have hlen := congrArg List.length h
      simp only [List.length_singleton, List.length_append, List.length_cons,
        List.length_nil] at hlen
      have h0 : natDigits (b / 10) = [] := List.length_eq_zero.mp (by omega)
      exact absurd h0 (natDigits_ne_nil _)
    · rw [if_neg ha, if_pos hb] at h
      have hlen := congrArg List.length h
      simp only [List.length_singleton, List.length_append, List.length_cons,
        List.length_nil] at hlen
      have h0 : natDigits (a / 10) = [] := List.length_eq_zero.mp (by omega)
      exact absurd h0 (natDigits_ne_nil _)
    · rw [if_neg ha, if_neg hb] at h
      obtain ⟨h1, h2⟩ := List.append_inj' h (by simp)
      simp only [List.cons.injEq, and_true] at h2
      have hdiv : a / 10 = b / 10 :=
        ih (a / 10) (Nat.div_lt_self (by omega) (by omega)) (b / 10) h1
      have hmod : a % 10 = b % 10 :=
        digitChar_inj10 (a % 10) (Nat.mod_lt a (by omega)) (b % 10)
          (Nat.mod_lt b (by omega)) h2
      omega

theorem append_sep_inj :
    ∀ (a a' b b' : List Char),
    (∀ ch ∈ a, ch ≠ ':') → (∀ ch ∈ a', ch ≠ ':') →
    a ++ ':' :: b = a' ++ ':' :: b' → a = a' ∧ b = b' := by
  intro a
  induction a with
  | nil =>
    intro a' b b' _ ha' h
    cases a' with
    | nil => simpa using h
    | cons c t =>
      simp only [List.nil_append, List.cons_append, List.cons.injEq] at h
      exact absurd h.1.symm (ha' c (List.mem_cons_self c t))
  | cons c t ih =>
    intro a' b b' ha ha' h
    cases a' with
    | nil =>
      simp only [List.cons_append, List.nil_append, List.cons.injEq] at h
      exact absurd h.1 (ha c (List.mem_cons_self c t))
    | cons c' t' =>
      simp only [List.cons_append, List.cons.injEq] at h
      obtain ⟨hc, hrest⟩ := h
      obtain ⟨hts, hbs⟩ := ih t' b b'
        (fun ch hch => ha ch (List.mem_cons_of_mem c hch))
        (fun ch hch => ha' ch (List.mem_cons_of_mem c' hch)) hrest
      exact ⟨by rw [hc, hts], hbs⟩

/-- C8 counterexample: two events with distinct (ledger, tx, type) triples —
(1, a:b, c) and (1, a, b:c) — produce the same unique_id string 1:a:b:c. -/
theorem uniqueId_collision_cex :
    uniqueId { id := ("e1"), ledger_sequence := 1, transaction_hash := ("a:b")
               contract_id := ("c1"), event_type := ("c"), data := none
               timestamp := 0, network := ("net") }
      = uniqueId { id := ("e2"), ledger_sequence := 1, transaction_hash := ("a")
                   contract_id := ("c2"), event_type := ("b:c"), data := none
                   timestamp := 0, network := ("net") }
    ∧ (("a:b") : String) ≠ ("a") := by
  exact ⟨rfl, by decide⟩

/-- C8 (amended): unique_id is a faithful encoding of the triple whenever
neither transaction_hash contains a colon; with colons in the hash, distinct
triples can collide. -/
theorem uniqueId_spec (e1 e2 : ContractEvent)
    (h1 : ∀ ch ∈ e1.transaction_hash.data, ch ≠ ':')
    (h2 : ∀ ch ∈ e2.transaction_hash.data, ch ≠ ':') :
    uniqueId e1 = uniqueId e2 ↔
      (e1.ledger_sequence = e2.ledger_sequence
       ∧ e1.transaction_hash = e2.transaction_hash
       ∧ e1.event_type = e2.event_type) := by
  constructor
  · intro h
    unfold uniqueId at h
    injection h with h
    simp only [List.append_assoc, List.cons_append] at h
    obtain ⟨hL, hrest⟩ := append_sep_inj _ _ _ _
      (natDigits_no_colon e1.ledger_sequence) (natDigits_no_colon e2.ledger_sequence) h
    obtain ⟨hT, hE⟩ := append_sep_inj _ _ _ _ h1 h2 hrest
    exact ⟨natDigits_injective _ _ hL, congrArg String.mk hT, congrArg String.mk hE⟩
  · rintro ⟨hL, hT, hE⟩
    unfold uniqueId
    rw [hL, hT, hE]

/-- Witness for C8 at concrete inputs: two events with colon-free hashes and
different ledgers have different unique ids. -/
theorem uniqueId_spec_witness :
    (∀ ch ∈ (("tx-a") : String).data, ch ≠ ':')
    ∧ ¬ (uniqueId { id := ("e1"), ledger_sequence := 1, transaction_hash := ("tx-a")
                    contract_id := ("c1"), event_type := ("t"), data := none
                    timestamp := 0, network := ("net") }
        = uniqueId { id := ("e2"), ledger_sequence := 2, transaction_hash := ("tx-a")
                     contract_id := ("c2"), event_type := ("t"), data := none
                     timestamp := 0, network := ("net") }) := by
  refine ⟨by decide, ?_⟩
  intro h
  have hiff := (uniqueId_spec
    { id := ("e1"), ledger_sequence := 1, transaction_hash := ("tx-a")
      contract_id := ("c1"), event_type := ("t"), data := none
      timestamp := 0, network := ("net") }
    { id := ("e2"), ledger_sequence := 2, transaction_hash := ("tx-a")
      contract_id := ("c2"), event_type := ("t"), data := none
      timestamp := 0, network := ("net") } (by decide) (by decide)).mp h
  exact absurd hiff.1 (by decide)

end StellarInsights
